import Mathlib

/-!
Verification of the EqV2-HER-Discovery post-processing workflow
(`notebooks/demo_InDomain_H_ads.ipynb`).

The notebook is a linear pipeline: it relaxes H-adsorption configurations
with an external ML surrogate and then post-processes the resulting
trajectory files.  The embedding below translates the notebook's own logic:

* the minimum-energy selection loop over one slab directory (section 4 of
  the notebook),
* the `classify` cardinality-to-label lookup,
* `tile_substrate`, `nearest_idx` and `site_info` (section 5),
* `shift_top` and the slab-metadata cache (section 6).

Modelling conventions:

* Python floats are modelled as rationals (`ℚ`); IEEE rounding is out of
  scope.  The per-atom force norm `np.linalg.norm(F, axis=1)` involves a
  square root, which is not rational; since `x ↦ x * x` is monotone on
  nonnegative reals, maxima of norms are modelled by maxima of *squared*
  norms (`normSq`).
* Trajectory files and the four `DetectTrajAnomaly` checks (external
  library `fairchem.data.oc.utils`) are abstracted: a trajectory enters the
  post-processing loop as a `TrajSummary` carrying the four anomaly flags,
  the final-frame potential energy, the final-frame per-atom forces and the
  file name.
* ASE structures are modelled by `Config`: the list of atoms (tag and
  chemical symbol) together with the lengths of the two in-plane cell
  vectors (`np.linalg.norm(sub.cell[0])` and `...cell[1]`), which are the
  only pieces of cell data the notebook reads.
* The minimum-image distance computation `atoms.get_distances(i, js,
  mic=True)` is ASE library code; it is abstracted as a distance oracle
  `dist : ℕ → ℚ` handed to `nearest_idx`.
-/

/-- Summary of one relaxation trajectory file as consumed by the notebook's
post-processing loop: the four `DetectTrajAnomaly` verdicts computed from the
first/last frames, the last frame's potential energy and forces, and the
trajectory file name. -/
structure TrajSummary where
  dissociated : Bool
  desorbed : Bool
  surfaceChanged : Bool
  intercalated : Bool
  finalE : ℚ
  finalForces : List (ℚ × ℚ × ℚ)
  file : String
deriving DecidableEq

/-- `True` iff the trajectory passes all four anomaly checks, i.e. the
notebook's `any([...])`-guarded `continue` does *not* fire. -/
def passesChecks (t : TrajSummary) : Bool :=
  !(t.dissociated || t.desorbed || t.surfaceChanged || t.intercalated)

/-- Squared L2 norm of one per-atom force 3-vector (`np.linalg.norm` of the
row, squared to stay rational). -/
def normSq (f : ℚ × ℚ × ℚ) : ℚ :=
  f.1 * f.1 + f.2.1 * f.2.1 + f.2.2 * f.2.2

/-- `np.linalg.norm(F, axis=1).max()`, in squared form: the maximum of the
squared per-atom force norms.  `none` models the error numpy raises on an
empty array. -/
def maxForceSq (fs : List (ℚ × ℚ × ℚ)) : Option ℚ :=
  match fs with
  | [] => none
  | f :: rest => some (rest.foldl (fun m g => max m (normSq g)) (normSq f))

/-- One row of the notebook's result table (the fields the selection loop
fills in; `max_F_ml` is stored in squared form, see `maxForceSq`). -/
structure ResultRecord where
  key : String
  min_E_ml : ℚ
  max_F_ml : Option ℚ
  traj_file : String
deriving DecidableEq

/-- `min(good, key=lambda d: d['E'])`: Python's `min` keeps the first
element attaining the minimum, i.e. it replaces the current best only on a
strictly smaller key. -/
def selectMin (g : TrajSummary) (gs : List TrajSummary) : TrajSummary :=
  gs.foldl (fun b t => if t.finalE < b.finalE then t else b) g

/-- The body of the per-slab-directory loop: filter out anomalous
trajectories, and if any survive, emit the record of the minimum-energy
survivor.  `none` models "no record appended". -/
def processSlab (key : String) (trajs : List TrajSummary) : Option ResultRecord :=
  match trajs.filter passesChecks with
  | [] => none
  | g :: gs =>
    some { key := key
           min_E_ml := (selectMin g gs).finalE
           max_F_ml := maxForceSq (selectMin g gs).finalForces
           traj_file := (selectMin g gs).file }

/-- The whole post-processing loop: one `(key, trajectories)` pair per slab
directory, accumulated into the `records` list.  Nothing else is emitted (in
particular no warning for all-anomalous slabs). -/
def postProcess (dirs : List (String × List TrajSummary)) : List ResultRecord :=
  dirs.filterMap fun d => processSlab d.1 d.2

/-- The notebook's site-label dictionary `{1: "top", 2: "bridge",
3: "3-fold", 4: "4-fold"}`. -/
def siteLabels : ℕ → Option String := fun n =>
  match n with
  | 1 => some "top"
  | 2 => some "bridge"
  | 3 => some "3-fold"
  | 4 => some "4-fold"
  | _ => none

/-- `classify = {...}.get`: dictionary lookup with a default value. -/
def classify (n : ℕ) (d : String) : String :=
  (siteLabels n).getD d

/-- `nearest_idx(atoms, ads_i, surf_idx, tol)`: build `(distance, index)`
pairs for every surface index, keep only strictly positive distances
(discarding zero-distance self-pairs), sort ascending by distance
(`sorted(..., key=lambda x: x[0])`), and return the indices of all pairs
within `(1 + tol) * d_min` of the smallest surviving distance; the empty
list if no pair survives.  `dist` is the ASE minimum-image distance oracle
`atoms.get_distances(ads_i, ., mic=True)`. -/
def nearest_idx (dist : ℕ → ℚ) (surf : List ℕ) (tol : ℚ := 1/10) : List ℕ :=
  match (((surf.map fun j => (dist j, j)).filter fun p => 0 < p.1).mergeSort
      fun p q => p.1 ≤ q.1) with
  | [] => []
  | p :: rest => (((p :: rest).filter fun q => q.1 ≤ p.1 * (1 + tol)).map Prod.snd)

/-- One atom of an ASE `Atoms` object, keeping the fields the notebook
reads: the tag (2 = adsorbate, 1 = surface, 0 = bulk) and the chemical
symbol. -/
structure Atom where
  tag : ℕ
  symbol : String
deriving DecidableEq

/-- An ASE `Atoms` object as used by the site-classification helpers: the
atom list plus the lengths of the two in-plane cell vectors. -/
structure Config where
  atoms : List Atom
  aLen : ℚ
  bLen : ℚ
deriving DecidableEq

/-- `tile_substrate(atoms, min_ab)`: split off the adsorbate (tag 2),
repeat the substrate `na × nb × 1` times with
`na = max(1, math.ceil(min_ab / a_len))` (likewise `nb`), scaling the cell
accordingly, and reattach the untiled adsorbate.  `none` models the
exception `math.ceil` raises on the infinite/NaN quotient produced when an
in-plane cell vector has length zero. -/
def tile_substrate (c : Config) (min_ab : ℚ := 8) : Option Config :=
  if c.aLen = 0 ∨ c.bLen = 0 then none
  else
    let sub := c.atoms.filter fun a => a.tag ≠ 2
    let ads := c.atoms.filter fun a => a.tag = 2
    let na : ℤ := max 1 (Rat.ceil (min_ab / c.aLen))
    let nb : ℤ := max 1 (Rat.ceil (min_ab / c.bLen))
    some { atoms := (List.replicate (na.toNat * nb.toNat) sub).flatten ++ ads
           aLen := (na : ℚ) * c.aLen
           bLen := (nb : ℚ) * c.bLen }

/-- `int(np.where(tags == 2)[0][0])`: index of the first adsorbate atom;
`none` models the `IndexError` raised when there is none. -/
def adsIdx (tags : List ℕ) : Option ℕ :=
  tags.findIdx? fun t => t = 2

/-- `np.where(tags == 1)[0]`: the (ascending) indices of the surface
atoms. -/
def surfIdx (tags : List ℕ) : List ℕ :=
  (List.range tags.length).filter fun i => tags.getD i 0 = 1

/-- The pair of columns `site_info` fills in for one row; `none` is the
Python `None`. -/
structure SiteResult where
  site_type : Option String
  nearest_atoms : Option (List String)
deriving DecidableEq

/-- The body of `site_info`'s `try` block: read the last frame of the
row's trajectory file (abstracted to `readRes`), tile it, locate the first
adsorbate atom and the surface atoms, run `nearest_idx` with the default
10% tolerance, classify by coordination count, and collect the symbols of
the coordinating atoms (`None` when the coordination set is empty).  A
`none` result models an exception escaping the `try` block. -/
def siteInfoCore (readRes : Option Config) (dist : ℕ → ℕ → ℚ) : Option SiteResult := do
  let atoms ← readRes
  let tiled ← tile_substrate atoms
  let tags := tiled.atoms.map Atom.tag
  let adsI ← adsIdx tags
  let near := nearest_idx (dist adsI) (surfIdx tags) (1/10)
  some { site_type := some (classify near.length "unknown")
         nearest_atoms :=
           if near.isEmpty then none
           else some (near.map fun i => (tiled.atoms.getD i ⟨0, ""⟩).symbol) }

/-- `site_info(row)`: the `try`/`except` wrapper — any failure inside the
body is caught and turned into a row of two `None`s, so the surrounding
`df.apply` is never aborted. -/
def site_info (readRes : Option Config) (dist : ℕ → ℕ → ℚ) : SiteResult :=
  (siteInfoCore readRes dist).getD { site_type := none, nearest_atoms := none }

/-- `\s` of the regex, restricted to the ASCII whitespace the slab
representations can contain. -/
def wsChar (c : Char) : Bool :=
  c = ' ' || c = '\t' || c = '\n' || c = '\r' || c = '\x0b' || c = '\x0c'

/-- Numeric value of one decimal digit character. -/
def digitVal (c : Char) : ℕ :=
  c.toNat - '0'.toNat

/-- Numeric value of a digit string, most significant digit first. -/
def digitsVal (ds : List Char) : ℕ :=
  ds.foldl (fun n c => 10 * n + digitVal c) 0

/-- Exact rational value of the decimal literal captured by the regex group
`[-+]?\d*\.?\d+` (the `float(...)` conversion, with IEEE rounding
abstracted away). -/
def decValue (neg : Bool) (intPart fracPart : List Char) : ℚ :=
  let mag : ℚ := (digitsVal intPart : ℚ) + (digitsVal fracPart : ℚ) / (10 : ℚ) ^ fracPart.length
  if neg then -mag else mag

/-- Consume the optional sign `[-+]?`: returns whether the literal is
negative and the input after the sign. -/
def stripSign (cs : List Char) : Bool × List Char :=
  match cs with
  | '-' :: rest => (true, rest)
  | '+' :: rest => (false, rest)
  | _ => (false, cs)

/-- Match the regex fragment `[-+]?\d*\.?\d+` greedily at the head of `cs`,
returning the value of the matched literal and the rest of the input.
Because a digit can neither follow the token (the regex continues with a
literal comma) nor start with anything but a sign, a dot or a digit, the
usual backtracking semantics collapses to this deterministic reading. -/
def matchNumber (cs : List Char) : Option (ℚ × List Char) :=
  match (stripSign cs).2.dropWhile Char.isDigit with
  | '.' :: cs3 =>
    if (cs3.takeWhile Char.isDigit).isEmpty then none
    else some (decValue (stripSign cs).1 ((stripSign cs).2.takeWhile Char.isDigit)
        (cs3.takeWhile Char.isDigit), cs3.dropWhile Char.isDigit)
  | cs2 =>
    if ((stripSign cs).2.takeWhile Char.isDigit).isEmpty then none
    else some (decValue (stripSign cs).1 ((stripSign cs).2.takeWhile Char.isDigit) [], cs2)

/-- Match the whole pattern `\([^)]*\),\s*([-+]?\d*\.?\d+),\s*(True|False)`
at the very start of `cs`, returning the two captured groups.  `[^)]*` can
only reach the first closing parenthesis, and whitespace cannot overlap the
number or the boolean, so the match is deterministic. -/
def matchAt (cs : List Char) : Option (ℚ × Bool) :=
  match cs with
  | '(' :: rest =>
    match rest.dropWhile (fun c => c ≠ ')') with
    | ')' :: ',' :: rest2 =>
      match matchNumber (rest2.dropWhile wsChar) with
      | some (q, ',' :: rest5) =>
        if "True".toList.isPrefixOf (rest5.dropWhile wsChar) then some (q, true)
        else if "False".toList.isPrefixOf (rest5.dropWhile wsChar) then some (q, false)
        else none
      | _ => none
    | _ => none
  | _ => none

/-- `re.search`: try the pattern at every start position, left to right. -/
def searchFrom : List Char → Option (ℚ × Bool)
  | [] => matchAt []
  | c :: rest =>
    match matchAt (c :: rest) with
    | some v => some v
    | none => searchFrom rest

/-- `shift_top(slab)`: recover the shift and the top-termination flag from
the slab's textual representation.  `none` models the `(nan, nan)` returned
when the regex does not match; a `some` result models the
`(float(...), m.group(2) == 'True')` pair. -/
def shift_top (s : String) : Option (ℚ × Bool) :=
  searchFrom s.toList

/-- The language of the regex group `[-+]?\d*\.?\d+`, stated declaratively:
an optional sign, then either digits, a dot and a nonempty digit string, or
a nonempty digit string. -/
def NumTok (cs : List Char) : Prop :=
  ∃ sgn d1 d2 : List Char,
    (sgn = [] ∨ sgn = ['-'] ∨ sgn = ['+']) ∧
    (∀ c ∈ d1, c.isDigit = true) ∧ (∀ c ∈ d2, c.isDigit = true) ∧ d2 ≠ [] ∧
    (cs = sgn ++ d1 ++ '.' :: d2 ∨ (d1 = [] ∧ cs = sgn ++ d2))

/-- The language of `\([^)]*\),\s*([-+]?\d*\.?\d+),\s*(True|False)` under
`re.search`: some substring of `cs` decomposes into the pattern's pieces. -/
def PatMatch (cs : List Char) : Prop :=
  ∃ pre body ws1 num ws2 tb post : List Char,
    cs = pre ++ '(' ::
      (body ++ ')' :: ',' :: (ws1 ++ num ++ ',' :: (ws2 ++ tb ++ post))) ∧
    (∀ c ∈ body, c ≠ ')') ∧ (∀ c ∈ ws1, wsChar c = true) ∧ NumTok num ∧
    (∀ c ∈ ws2, wsChar c = true) ∧
    (tb = "True".toList ∨ tb = "False".toList)

/-- The slab-metadata cache entry for `(bulk id, slab index)`:
`shift_top(slabs[idx]) if idx < len(slabs) else (nan, nan)`, with slab
objects abstracted to their textual representations. -/
def cachedShiftTop (slabs : List String) (idx : ℕ) : Option (ℚ × Bool) :=
  if h : idx < slabs.length then shift_top (slabs.get ⟨idx, h⟩) else none

/-- Modelled from the spec: one frame of a relaxation trajectory, carrying
atomic positions and per-atom tags.  The relaxation driver itself
(`ase.optimize.BFGS` driven by the `OCPCalculator` surrogate) is an
external library, not part of this repository; per the spec it is a local
gradient-based optimization that iteratively updates *atomic positions*
until the force threshold or the step cap is reached. -/
structure Frame where
  positions : List (ℚ × ℚ × ℚ)
  tags : List ℕ
deriving DecidableEq

/-- Modelled from the spec: one optimizer step moves the atoms
(`upd` abstracts the quasi-Newton position update); nothing else about the
structure changes. -/
def bfgsStep (upd : List (ℚ × ℚ × ℚ) → List (ℚ × ℚ × ℚ)) (f : Frame) : Frame :=
  { positions := upd f.positions, tags := f.tags }

/-- Modelled from the spec: the trajectory file written by
`BFGS(...).run(fmax=0.05, steps=100)` — the initial frame followed by one
frame per optimizer step, stopping early once the convergence test
(`conv`, abstracting `fmax`) succeeds or after the step cap. -/
def bfgsRun (upd : List (ℚ × ℚ × ℚ) → List (ℚ × ℚ × ℚ)) (conv : Frame → Bool) :
    ℕ → Frame → List Frame
  | 0, f => [f]
  | n + 1, f => if conv f then [f] else f :: bfgsRun upd conv n (bfgsStep upd f)

/-- C2: the site classifier maps coordination-set cardinality 1 to "top",
2 to "bridge", 3 to "3-fold", 4 to "4-fold", and any other cardinality
(0 or at least 5) to the default "unknown"; it is a fixed lookup. -/
theorem classify_spec :
    classify 1 "unknown" = "top" ∧ classify 2 "unknown" = "bridge" ∧
    classify 3 "unknown" = "3-fold" ∧ classify 4 "unknown" = "4-fold" ∧
    ∀ n : ℕ, n ≠ 1 → n ≠ 2 → n ≠ 3 → n ≠ 4 → classify n "unknown" = "unknown" := by
  refine ⟨rfl, rfl, rfl, rfl, ?_⟩
  intro n h1 h2 h3 h4
  match n with
  | 0 => rfl
  | 1 => exact absurd rfl h1
  | 2 => exact absurd rfl h2
  | 3 => exact absurd rfl h3
  | 4 => exact absurd rfl h4
  | m + 5 => rfl

theorem classify_spec_witness :
    classify 0 "unknown" = "unknown" ∧ classify 7 "unknown" = "unknown" :=
  ⟨classify_spec.2.2.2.2 0 (by decide) (by decide) (by decide) (by decide),
   classify_spec.2.2.2.2 7 (by decide) (by decide) (by decide) (by decide)⟩

/-- C10: a result key whose slab index is at least the number of slabs
enumerated for its bulk id is cached as the NaN sentinel instead of
producing an out-of-bounds indexing error, so building and joining the
metadata cache is total. -/
theorem cachedShiftTop_out_of_range (slabs : List String) (idx : ℕ)
    (h : slabs.length ≤ idx) : cachedShiftTop slabs idx = none := by
  unfold cachedShiftTop
  rw [dif_neg]
  omega

theorem cachedShiftTop_out_of_range_witness :
    cachedShiftTop ["some slab text"] 3 = none :=
  cachedShiftTop_out_of_range ["some slab text"] 3 (by decide)

lemma bfgsRun_ne_nil (upd : List (ℚ × ℚ × ℚ) → List (ℚ × ℚ × ℚ))
    (conv : Frame → Bool) (n : ℕ) (f : Frame) : bfgsRun upd conv n f ≠ [] := by
  cases n with
  | zero => simp [bfgsRun]
  | succ m =>
    unfold bfgsRun
    split <;> simp

/-- C8: every frame of a written relaxation trajectory carries the initial
frame's tag array; in particular the trajectory starts at the initial
configuration and its final frame has unchanged tags (the optimizer only
moves positions). -/
theorem bfgsRun_preserves_tags (upd : List (ℚ × ℚ × ℚ) → List (ℚ × ℚ × ℚ))
    (conv : Frame → Bool) (n : ℕ) (f0 : Frame) :
    (∀ fr ∈ bfgsRun upd conv n f0, fr.tags = f0.tags) ∧
    (bfgsRun upd conv n f0).head? = some f0 ∧
    ∃ lf, (bfgsRun upd conv n f0).getLast? = some lf ∧ lf.tags = f0.tags := by
  induction n generalizing f0 with
  | zero =>
    refine ⟨?_, rfl, f0, rfl, rfl⟩
    intro fr hfr
    simp only [bfgsRun, List.mem_singleton] at hfr
    rw [hfr]
  | succ m ih =>
    by_cases hc : conv f0 = true
    · have hrun : bfgsRun upd conv (m + 1) f0 = [f0] := by
        simp [bfgsRun, hc]
      refine ⟨?_, ?_, f0, ?_, rfl⟩ <;> rw [hrun]
      · intro fr hfr
        rw [List.mem_singleton.mp hfr]
      · rfl
      · rfl
    · have hstep : (bfgsStep upd f0).tags = f0.tags := rfl
      obtain ⟨hall, hhead, lf, hlast, htags⟩ := ih (bfgsStep upd f0)
      have hrun : bfgsRun upd conv (m + 1) f0
          = f0 :: bfgsRun upd conv m (bfgsStep upd f0) := by
        simp [bfgsRun, hc]
      refine ⟨?_, ?_, lf, ?_, htags.trans hstep⟩
      · intro fr hfr
        rw [hrun] at hfr
        rcases List.mem_cons.mp hfr with h | h
        · rw [h]
        · exact (hall fr h).trans hstep
      · rw [hrun, List.head?_cons]
      · rw [hrun]
        rcases hrest : bfgsRun upd conv m (bfgsStep upd f0) with _ | ⟨r, rs⟩
        · exact absurd hrest (bfgsRun_ne_nil upd conv m (bfgsStep upd f0))
        · rw [List.getLast?_cons_cons, ← hrest, hlast]

theorem bfgsRun_preserves_tags_witness :
    ((bfgsRun id (fun _ => false) 2 ⟨[(0, 0, 0)], [2, 1, 0]⟩).head?
      = some ⟨[(0, 0, 0)], [2, 1, 0]⟩) ∧
    (∃ lf, (bfgsRun id (fun _ => false) 2 ⟨[(0, 0, 0)], [2, 1, 0]⟩).getLast? = some lf ∧
      lf.tags = Frame.tags ⟨[(0, 0, 0)], [2, 1, 0]⟩) ∧
    (bfgsStep id ⟨[(0, 0, 0)], [2, 1, 0]⟩).tags = Frame.tags ⟨[(0, 0, 0)], [2, 1, 0]⟩ :=
  ⟨(bfgsRun_preserves_tags id (fun _ => false) 2 ⟨[(0, 0, 0)], [2, 1, 0]⟩).2.1,
   (bfgsRun_preserves_tags id (fun _ => false) 2 ⟨[(0, 0, 0)], [2, 1, 0]⟩).2.2,
   (bfgsRun_preserves_tags id (fun _ => false) 2 ⟨[(0, 0, 0)], [2, 1, 0]⟩).1
     (bfgsStep id ⟨[(0, 0, 0)], [2, 1, 0]⟩) (by decide)⟩

lemma selectMin_mem (g : TrajSummary) (gs : List TrajSummary) :
    selectMin g gs ∈ g :: gs := by
  induction gs generalizing g with
  | nil => simp [selectMin]
  | cons t ts ih =>
    have hstep : selectMin g (t :: ts)
        = selectMin (if t.finalE < g.finalE then t else g) ts := rfl
    rw [hstep]
    rcases List.mem_cons.mp (ih (if t.finalE < g.finalE then t else g)) with h | h
    · rw [h]
      split <;> simp
    · simp [h]

lemma selectMin_le (g : TrajSummary) (gs : List TrajSummary) :
    ∀ u ∈ g :: gs, (selectMin g gs).finalE ≤ u.finalE := by
  induction gs generalizing g with
  | nil =>
    intro u hu
    rw [List.mem_singleton.mp hu]
    exact le_refl _
  | cons t ts ih =>
    intro u hu
    by_cases hlt : t.finalE < g.finalE
    · have hstep : selectMin g (t :: ts) = selectMin t ts := by
        simp only [selectMin, List.foldl_cons, if_pos hlt]
      rw [hstep]
      rcases List.mem_cons.mp hu with h | h
      · rw [h]
        exact le_trans (ih t t (List.mem_cons_self _ _)) (le_of_lt hlt)
      · exact ih t u h
    · have hstep : selectMin g (t :: ts) = selectMin g ts := by
        simp only [selectMin, List.foldl_cons, if_neg hlt]
      rw [hstep]
      rcases List.mem_cons.mp hu with h | h
      · rw [h]
        exact ih g g (List.mem_cons_self _ _)
      rcases List.mem_cons.mp h with h2 | h2
      · rw [h2]
        exact le_trans (ih g g (List.mem_cons_self _ _)) (le_of_not_lt hlt)
      · exact ih g u (List.mem_cons_of_mem _ h2)

lemma foldl_max_normSq (l : List (ℚ × ℚ × ℚ)) (a : ℚ) :
    a ≤ l.foldl (fun m g => max m (normSq g)) a ∧
    (∀ g ∈ l, normSq g ≤ l.foldl (fun m g => max m (normSq g)) a) ∧
    (l.foldl (fun m g => max m (normSq g)) a = a ∨
      ∃ g ∈ l, l.foldl (fun m g => max m (normSq g)) a = normSq g) := by
  induction l generalizing a with
  | nil => exact ⟨le_refl _, by simp, Or.inl rfl⟩
  | cons f fs ih =>
    obtain ⟨hle, hbound, hattain⟩ := ih (max a (normSq f))
    have hfold : (f :: fs).foldl (fun m g => max m (normSq g)) a
        = fs.foldl (fun m g => max m (normSq g)) (max a (normSq f)) := rfl
    refine ⟨?_, ?_, ?_⟩
    · rw [hfold]
      exact le_trans (le_max_left _ _) hle
    · intro g hg
      rw [hfold]
      rcases List.mem_cons.mp hg with h | h
      · rw [h]
        exact le_trans (le_max_right _ _) hle
      · exact hbound g h
    · rw [hfold]
      rcases hattain with h | ⟨g, hg, hval⟩
      · rcases max_cases a (normSq f) with ⟨hm, _⟩ | ⟨hm, _⟩
        · exact Or.inl (h.trans hm)
        · exact Or.inr ⟨f, List.mem_cons_self _ _, h.trans hm⟩
      · exact Or.inr ⟨g, List.mem_cons_of_mem _ hg, hval⟩

lemma maxForceSq_spec (fs : List (ℚ × ℚ × ℚ)) (h : fs ≠ []) :
    ∃ m, maxForceSq fs = some m ∧ (∀ f ∈ fs, normSq f ≤ m) ∧
      ∃ f ∈ fs, normSq f = m := by
  cases fs with
  | nil => exact absurd rfl h
  | cons f rest =>
    obtain ⟨hle, hbound, hattain⟩ := foldl_max_normSq rest (normSq f)
    refine ⟨rest.foldl (fun m g => max m (normSq g)) (normSq f), rfl, ?_, ?_⟩
    · intro g hg
      rcases List.mem_cons.mp hg with h2 | h2
      · rw [h2]; exact hle
      · exact hbound g h2
    · rcases hattain with h2 | ⟨g, hg, hval⟩
      · exact ⟨f, List.mem_cons_self _ _, h2.symm⟩
      · exact ⟨g, List.mem_cons_of_mem _ hg, hval.symm⟩

/-- C1: whenever some trajectory of a slab directory survives all four
anomaly checks, the emitted record is built from a *surviving* trajectory
(so an anomalous one is never selected, whatever its energy), its
`min_E_ml` is the lowest final-frame energy among the survivors, its
`traj_file` is that trajectory's file, and its `max_F_ml` is the maximum
over that trajectory's final-frame atoms of the (squared) per-atom force
norm. -/
theorem processSlab_selects_min (key : String) (trajs : List TrajSummary)
    (h : ∃ t ∈ trajs, passesChecks t = true) :
    ∃ r t, processSlab key trajs = some r ∧ t ∈ trajs ∧ passesChecks t = true ∧
      r.min_E_ml = t.finalE ∧ r.traj_file = t.file ∧
      r.max_F_ml = maxForceSq t.finalForces ∧
      (∀ u ∈ trajs, passesChecks u = true → t.finalE ≤ u.finalE) ∧
      (t.finalForces ≠ [] → ∃ m, maxForceSq t.finalForces = some m ∧
        (∀ f ∈ t.finalForces, normSq f ≤ m) ∧ ∃ f ∈ t.finalForces, normSq f = m) := by
  obtain ⟨t0, ht0, hp0⟩ := h
  rcases hfil : trajs.filter passesChecks with _ | ⟨g, gs⟩
  · exact absurd (List.mem_filter.mpr ⟨ht0, hp0⟩) (by rw [hfil]; simp)
  · have hrec : processSlab key trajs
        = some { key := key
                 min_E_ml := (selectMin g gs).finalE
                 max_F_ml := maxForceSq (selectMin g gs).finalForces
                 traj_file := (selectMin g gs).file } := by
      unfold processSlab
      rw [hfil]
    have hmemfil : selectMin g gs ∈ trajs.filter passesChecks := by
      rw [hfil]
      exact selectMin_mem g gs
    have hmem := List.mem_filter.mp hmemfil
    refine ⟨_, selectMin g gs, hrec, hmem.1, hmem.2, rfl, rfl, rfl, ?_, ?_⟩
    · intro u hu hpu
      have : u ∈ g :: gs := by
        rw [← hfil]
        exact List.mem_filter.mpr ⟨hu, hpu⟩
      exact selectMin_le g gs u this
    · exact maxForceSq_spec _

theorem processSlab_selects_min_witness :
    ∃ r t,
      processSlab "mp-1_H_0_221"
        [⟨false, true, false, false, -5, [(1, 0, 0)], "config_0.traj"⟩,
         ⟨false, false, false, false, -1, [(1, 0, 0)], "config_1.traj"⟩,
         ⟨false, false, false, false, -2, [(0, 1, 0), (0, 0, 2)], "config_2.traj"⟩]
        = some r ∧
      t ∈ [⟨false, true, false, false, -5, [(1, 0, 0)], "config_0.traj"⟩,
         ⟨false, false, false, false, -1, [(1, 0, 0)], "config_1.traj"⟩,
         ⟨false, false, false, false, -2, [(0, 1, 0), (0, 0, 2)], "config_2.traj"⟩] ∧
      passesChecks t = true ∧
      r.min_E_ml = t.finalE ∧ r.traj_file = t.file ∧
      r.max_F_ml = maxForceSq t.finalForces ∧
      (∀ u ∈ [⟨false, true, false, false, -5, [(1, 0, 0)], "config_0.traj"⟩,
         ⟨false, false, false, false, -1, [(1, 0, 0)], "config_1.traj"⟩,
         ⟨false, false, false, false, -2, [(0, 1, 0), (0, 0, 2)], "config_2.traj"⟩],
        passesChecks u = true → t.finalE ≤ u.finalE) ∧
      (t.finalForces ≠ [] → ∃ m, maxForceSq t.finalForces = some m ∧
        (∀ f ∈ t.finalForces, normSq f ≤ m) ∧ ∃ f ∈ t.finalForces, normSq f = m) :=
  processSlab_selects_min "mp-1_H_0_221" _
    ⟨⟨false, false, false, false, -1, [(1, 0, 0)], "config_1.traj"⟩, by decide, by decide⟩

/-- C6: a slab contributes a row to the final table iff at least one of
its trajectories survives the four anomaly checks: per slab the loop body
returns a record exactly when a survivor exists, an all-anomalous slab
directory contributes nothing to the accumulated records (and nothing
else, e.g. no warning entry, is emitted in its place), and a slab with a
survivor contributes exactly one row keyed by it. -/
theorem postProcess_record_iff_survivor :
    (∀ key trajs, (processSlab key trajs).isSome = true ↔
      ∃ t ∈ trajs, passesChecks t = true) ∧
    (∀ pre post key trajs, (∀ t ∈ trajs, passesChecks t = false) →
      postProcess (pre ++ (key, trajs) :: post) = postProcess pre ++ postProcess post) ∧
    (∀ pre post key trajs, (∃ t ∈ trajs, passesChecks t = true) →
      ∃ r, postProcess (pre ++ (key, trajs) :: post)
        = postProcess pre ++ r :: postProcess post ∧ r.key = key) := by
  have hiff : ∀ (key : String) (trajs : List TrajSummary),
      (processSlab key trajs).isSome = true ↔ ∃ t ∈ trajs, passesChecks t = true := by
    intro key trajs
    constructor
    · intro hs
      rcases hfil : trajs.filter passesChecks with _ | ⟨g, gs⟩
      · unfold processSlab at hs
        rw [hfil] at hs
        exact absurd hs (by simp)
      · have : g ∈ trajs.filter passesChecks := by rw [hfil]; simp
        have hm := List.mem_filter.mp this
        exact ⟨g, hm.1, hm.2⟩
    · intro ⟨t, ht, hp⟩
      rcases hfil : trajs.filter passesChecks with _ | ⟨g, gs⟩
      · exact absurd (List.mem_filter.mpr ⟨ht, hp⟩) (by rw [hfil]; simp)
      · unfold processSlab
        rw [hfil]
        rfl
  refine ⟨hiff, ?_, ?_⟩
  · intro pre post key trajs hall
    have hnone : processSlab key trajs = none := by
      have : ¬ (processSlab key trajs).isSome = true := by
        rw [hiff key trajs]
        rintro ⟨t, ht, hp⟩
        rw [hall t ht] at hp
        exact Bool.false_ne_true hp
      exact Option.not_isSome_iff_eq_none.mp this
    unfold postProcess
    rw [List.filterMap_append, List.filterMap_cons]
    simp [hnone]
  · intro pre post key trajs hex
    have hsome := (hiff key trajs).mpr hex
    obtain ⟨r, hr⟩ := Option.isSome_iff_exists.mp hsome
    have hkey : r.key = key := by
      unfold processSlab at hr
      rcases hfil : trajs.filter passesChecks with _ | ⟨g, gs⟩ <;> rw [hfil] at hr
      · exact absurd hr (by simp)
      · cases hr
        rfl
    refine ⟨r, ?_, hkey⟩
    unfold postProcess
    rw [List.filterMap_append, List.filterMap_cons]
    simp [hr]

theorem postProcess_record_iff_survivor_witness :
    ((processSlab "k1" [⟨false, true, false, false, -5, [], "b.traj"⟩]).isSome = true ↔
      ∃ t ∈ [⟨false, true, false, false, -5, [], "b.traj"⟩], passesChecks t = true) ∧
    (postProcess ([("k0", [])] ++ ("k1", [⟨false, true, false, false, -5, [], "b.traj"⟩]) ::
        [("k2", [⟨false, false, false, false, -1, [], "g.traj"⟩])])
      = postProcess [("k0", [])]
        ++ postProcess [("k2", [⟨false, false, false, false, -1, [], "g.traj"⟩])]) ∧
    (∃ r, postProcess ([("k0", [])] ++ ("k2", [⟨false, false, false, false, -1, [], "g.traj"⟩]) :: [])
      = postProcess [("k0", [])] ++ r :: postProcess [] ∧ r.key = "k2") :=
  ⟨postProcess_record_iff_survivor.1 "k1" [⟨false, true, false, false, -5, [], "b.traj"⟩],
   postProcess_record_iff_survivor.2.1 [("k0", [])]
     [("k2", [⟨false, false, false, false, -1, [], "g.traj"⟩])] "k1"
     [⟨false, true, false, false, -5, [], "b.traj"⟩] (by decide),
   postProcess_record_iff_survivor.2.2 [("k0", [])] [] "k2"
     [⟨false, false, false, false, -1, [], "g.traj"⟩]
     ⟨⟨false, false, false, false, -1, [], "g.traj"⟩, by decide, by decide⟩⟩

lemma nearest_idx_nil_of_nonpos (dist : ℕ → ℚ) (surf : List ℕ) (tol : ℚ)
    (h : ∀ j ∈ surf, ¬ 0 < dist j) : nearest_idx dist surf tol = [] := by
  have hpairs : (surf.map fun j => (dist j, j)).filter (fun p => 0 < p.1) = [] := by
    rw [List.filter_eq_nil_iff]
    intro q hq
    obtain ⟨j, hj, hq⟩ := List.mem_map.mp hq
    subst hq
    simpa using h j hj
  unfold nearest_idx
  rw [hpairs, List.mergeSort_nil]

lemma mem_distPairs (dist : ℕ → ℚ) (surf : List ℕ) (q : ℚ × ℕ)
    (hq : q ∈ (surf.map fun j => (dist j, j)).filter fun p => 0 < p.1) :
    q.1 = dist q.2 ∧ q.2 ∈ surf ∧ 0 < q.1 := by
  obtain ⟨hmem, hpos⟩ := List.mem_filter.mp hq
  obtain ⟨j, hj, hq⟩ := List.mem_map.mp hmem
  subst hq
  exact ⟨rfl, hj, of_decide_eq_true hpos⟩

lemma distPairs_sorted (dist : ℕ → ℚ) (surf : List ℕ) :
    (((surf.map fun j => (dist j, j)).filter fun p => 0 < p.1).mergeSort
        fun p q => p.1 ≤ q.1).Pairwise fun p q : ℚ × ℕ => p.1 ≤ q.1 := by
  have h := @List.sorted_mergeSort (ℚ × ℕ)
    (fun p q => decide (p.1 ≤ q.1))
    (fun a b c hab hbc => by
      simp only [decide_eq_true_eq] at *
      exact le_trans hab hbc)
    (fun a b => by
      simp only [Bool.or_eq_true, decide_eq_true_eq]
      exact le_total a.1 b.1)
    ((surf.map fun j => (dist j, j)).filter fun p => 0 < p.1)
  exact h.imp fun hab => of_decide_eq_true hab

/-- C3: `nearest_idx` returns the empty list when there are no surface
atoms, and also when no surface atom is at strictly positive minimum-image
distance (zero-distance self-pairs are discarded); otherwise there is a
smallest positive distance `dmin`, attained by a surface atom, and the
result consists of exactly the surface indices at positive distance at most
`dmin * (1 + tol)`, listed in ascending distance order. -/
theorem nearest_idx_spec (dist : ℕ → ℚ) (surf : List ℕ) (tol : ℚ) :
    (surf = [] → nearest_idx dist surf tol = []) ∧
    ((∀ j ∈ surf, ¬ 0 < dist j) → nearest_idx dist surf tol = []) ∧
    (∀ j0 ∈ surf, 0 < dist j0 →
      ∃ dmin, 0 < dmin ∧ (∃ j ∈ surf, dist j = dmin) ∧
        (∀ k ∈ surf, 0 < dist k → dmin ≤ dist k) ∧
        (∀ j, j ∈ nearest_idx dist surf tol ↔
          j ∈ surf ∧ 0 < dist j ∧ dist j ≤ dmin * (1 + tol)) ∧
        (nearest_idx dist surf tol).Pairwise fun a b => dist a ≤ dist b) := by
  refine ⟨?_, ?_, ?_⟩
  · intro h
    subst h
    unfold nearest_idx
    rw [show ((([] : List ℕ).map fun j => (dist j, j)).filter fun p => 0 < p.1) = [] from rfl,
      List.mergeSort_nil]
  · exact nearest_idx_nil_of_nonpos dist surf tol
  · intro j0 hj0 hpos0
    have hmem0 : (dist j0, j0) ∈
        ((surf.map fun j => (dist j, j)).filter fun p => 0 < p.1).mergeSort
          fun p q => p.1 ≤ q.1 := by
      rw [List.mem_mergeSort]
      exact List.mem_filter.mpr
        ⟨List.mem_map.mpr ⟨j0, hj0, rfl⟩, decide_eq_true hpos0⟩
    rcases hS : ((surf.map fun j => (dist j, j)).filter fun p => 0 < p.1).mergeSort
        (fun p q => p.1 ≤ q.1) with _ | ⟨p, rest⟩
    · rw [hS] at hmem0
      exact absurd hmem0 (List.not_mem_nil _)
    · have hres : nearest_idx dist surf tol
          = ((p :: rest).filter fun q => q.1 ≤ p.1 * (1 + tol)).map Prod.snd := by
        unfold nearest_idx
        rw [hS]
    -- facts about the head of the sorted list
      have hmemS : ∀ q : ℚ × ℕ, q ∈ p :: rest →
          q.1 = dist q.2 ∧ q.2 ∈ surf ∧ 0 < q.1 := by
        intro q hq
        rw [← hS, List.mem_mergeSort] at hq
        exact mem_distPairs dist surf q hq
      have hsorted : (p :: rest).Pairwise fun q r : ℚ × ℕ => q.1 ≤ r.1 := by
        rw [← hS]
        exact distPairs_sorted dist surf
      have hhead := hmemS p (List.mem_cons_self _ _)
      have hmin : ∀ k ∈ surf, 0 < dist k → p.1 ≤ dist k := by
        intro k hk hkpos
        have hkmem : (dist k, k) ∈ p :: rest := by
          rw [← hS, List.mem_mergeSort]
          exact List.mem_filter.mpr
            ⟨List.mem_map.mpr ⟨k, hk, rfl⟩, decide_eq_true hkpos⟩
        rcases List.mem_cons.mp hkmem with h | h
        · rw [← h]
        · exact (List.pairwise_cons.mp hsorted).1 (dist k, k) h
      refine ⟨p.1, hhead.2.2, ⟨p.2, hhead.2.1, hhead.1.symm⟩, hmin, ?_, ?_⟩
      · intro j
        rw [hres]
        constructor
        · intro hj
          obtain ⟨q, hqmem, hqsnd⟩ := List.mem_map.mp hj
          obtain ⟨hqS, hqcut⟩ := List.mem_filter.mp hqmem
          obtain ⟨hfst, hsurf, hqpos⟩ := hmemS q hqS
          subst hqsnd
          rw [hfst] at hqpos hqcut
          exact ⟨hsurf, hqpos, of_decide_eq_true hqcut⟩
        · rintro ⟨hjsurf, hjpos, hjcut⟩
          refine List.mem_map.mpr ⟨(dist j, j), List.mem_filter.mpr ⟨?_, ?_⟩, rfl⟩
          · rw [← hS, List.mem_mergeSort]
            exact List.mem_filter.mpr
              ⟨List.mem_map.mpr ⟨j, hjsurf, rfl⟩, decide_eq_true hjpos⟩
          · exact decide_eq_true hjcut
      · rw [hres, List.pairwise_map]
        have hsub : ((p :: rest).filter fun q => q.1 ≤ p.1 * (1 + tol)).Pairwise
            fun q r : ℚ × ℕ => q.1 ≤ r.1 :=
          hsorted.sublist (List.filter_sublist _)
        refine hsub.imp_of_mem ?_
        intro q r hq hr hle
        have hq1 := (hmemS q (List.mem_of_mem_filter hq)).1
        have hr1 := (hmemS r (List.mem_of_mem_filter hr)).1
        rw [hq1, hr1] at hle
        exact hle

theorem nearest_idx_spec_witness :
    ∃ dmin, 0 < dmin ∧
      (∃ j ∈ [5, 7, 9], (fun k : ℕ => if k = 5 then (0 : ℚ) else if k = 7 then 1 else 2) j = dmin) ∧
      (∀ k ∈ [5, 7, 9], 0 < (fun k : ℕ => if k = 5 then (0 : ℚ) else if k = 7 then 1 else 2) k →
        dmin ≤ (fun k : ℕ => if k = 5 then (0 : ℚ) else if k = 7 then 1 else 2) k) ∧
      (∀ j, j ∈ nearest_idx (fun k : ℕ => if k = 5 then (0 : ℚ) else if k = 7 then 1 else 2)
          [5, 7, 9] (1/10) ↔
        j ∈ [5, 7, 9] ∧ 0 < (fun k : ℕ => if k = 5 then (0 : ℚ) else if k = 7 then 1 else 2) j ∧
          (fun k : ℕ => if k = 5 then (0 : ℚ) else if k = 7 then 1 else 2) j ≤ dmin * (1 + 1/10)) ∧
      (nearest_idx (fun k : ℕ => if k = 5 then (0 : ℚ) else if k = 7 then 1 else 2)
          [5, 7, 9] (1/10)).Pairwise
        fun a b => (fun k : ℕ => if k = 5 then (0 : ℚ) else if k = 7 then 1 else 2) a
          ≤ (fun k : ℕ => if k = 5 then (0 : ℚ) else if k = 7 then 1 else 2) b :=
  (nearest_idx_spec (fun k : ℕ => if k = 5 then (0 : ℚ) else if k = 7 then 1 else 2)
    [5, 7, 9] (1/10)).2.2 7 (by decide) (by decide)

lemma ratCeil_eq (q : ℚ) : Rat.ceil q = ⌈q⌉ := by
  symm
  rw [Int.ceil_eq_iff]
  unfold Rat.ceil
  by_cases hd : q.den = 1
  · rw [if_pos hd]
    have h1 := Rat.num_div_den q
    rw [hd] at h1
    push_cast at h1
    rw [div_one] at h1
    exact ⟨lt_of_lt_of_le (sub_one_lt _) (le_of_eq h1), le_of_eq h1.symm⟩
  · rw [if_neg hd]
    have hfl : ⌊q⌋ = q.num / (q.den : ℤ) := Rat.floor_def
    rw [← hfl]
    have hne : ((⌊q⌋ : ℚ)) ≠ q := by
      intro heq
      apply hd
      rw [← heq]
      exact Rat.den_intCast _
    constructor
    · push_cast
      have := lt_of_le_of_ne (Int.floor_le q) hne
      linarith
    · push_cast
      linarith [Int.lt_floor_add_one q]

/-- C4: for positive in-plane lengths, `tile_substrate` succeeds, the two
tiling factors are exactly the least positive integers bringing each
in-plane length up to `min_ab`, the cell is scaled by them, the tiled atom
list is the substrate repeated `na * nb` times followed by the untiled
adsorbate, and when both lengths already reach `min_ab` both factors are 1
and the configuration is left unchanged (up to the substrate/adsorbate
reordering that reattachment performs). -/
theorem tile_substrate_spec (c : Config) (min_ab : ℚ)
    (ha : 0 < c.aLen) (hb : 0 < c.bLen) :
    ∃ tiled, tile_substrate c min_ab = some tiled ∧
      ∃ na nb : ℤ,
        na = max 1 (Rat.ceil (min_ab / c.aLen)) ∧
        nb = max 1 (Rat.ceil (min_ab / c.bLen)) ∧
        0 < na ∧ 0 < nb ∧
        min_ab ≤ (na : ℚ) * c.aLen ∧ min_ab ≤ (nb : ℚ) * c.bLen ∧
        (∀ k : ℤ, 0 < k → min_ab ≤ (k : ℚ) * c.aLen → na ≤ k) ∧
        (∀ k : ℤ, 0 < k → min_ab ≤ (k : ℚ) * c.bLen → nb ≤ k) ∧
        tiled.aLen = (na : ℚ) * c.aLen ∧ tiled.bLen = (nb : ℚ) * c.bLen ∧
        tiled.atoms = (List.replicate (na.toNat * nb.toNat)
            (c.atoms.filter fun a => a.tag ≠ 2)).flatten
          ++ c.atoms.filter (fun a => a.tag = 2) ∧
        (min_ab ≤ c.aLen → min_ab ≤ c.bLen → na = 1 ∧ nb = 1 ∧
          tiled.atoms = (c.atoms.filter fun a => a.tag ≠ 2)
            ++ c.atoms.filter (fun a => a.tag = 2) ∧
          tiled.aLen = c.aLen ∧ tiled.bLen = c.bLen) := by
  have hcond : ¬ (c.aLen = 0 ∨ c.bLen = 0) := by
    rintro (h | h)
    · exact absurd h (ne_of_gt ha)
    · exact absurd h (ne_of_gt hb)
  have htile : tile_substrate c min_ab
      = some (Config.mk
          ((List.replicate
            ((max 1 (Rat.ceil (min_ab / c.aLen))).toNat
              * (max 1 (Rat.ceil (min_ab / c.bLen))).toNat)
            (c.atoms.filter fun a => a.tag ≠ 2)).flatten
          ++ c.atoms.filter (fun a => a.tag = 2))
          (((max 1 (Rat.ceil (min_ab / c.aLen)) : ℤ) : ℚ) * c.aLen)
          (((max 1 (Rat.ceil (min_ab / c.bLen)) : ℤ) : ℚ) * c.bLen)) := by
    unfold tile_substrate
    rw [if_neg hcond]
  have hreach : ∀ x : ℚ, 0 < x →
      min_ab ≤ ((max 1 (Rat.ceil (min_ab / x)) : ℤ) : ℚ) * x := by
    intro x hx
    have h1 : min_ab / x ≤ ((max 1 (Rat.ceil (min_ab / x)) : ℤ) : ℚ) := by
      rw [ratCeil_eq]
      calc min_ab / x ≤ ((⌈min_ab / x⌉ : ℤ) : ℚ) := Int.le_ceil _
        _ ≤ _ := by exact_mod_cast le_max_right 1 ⌈min_ab / x⌉
    rw [div_le_iff₀ hx] at h1
    exact h1
  have hleast : ∀ x : ℚ, 0 < x → ∀ k : ℤ, 0 < k → min_ab ≤ (k : ℚ) * x →
      max 1 (Rat.ceil (min_ab / x)) ≤ k := by
    intro x hx k hk hkx
    rw [ratCeil_eq]
    refine max_le hk ?_
    rw [Int.ceil_le]
    rw [div_le_iff₀ hx]
    exact_mod_cast hkx
  have hone : ∀ x : ℚ, 0 < x → min_ab ≤ x → max 1 (Rat.ceil (min_ab / x)) = 1 := by
    intro x hx hge
    rw [ratCeil_eq]
    refine max_eq_left ?_
    rw [Int.ceil_le]
    push_cast
    rw [div_le_one hx]
    exact hge
  refine ⟨_, htile, max 1 (Rat.ceil (min_ab / c.aLen)), max 1 (Rat.ceil (min_ab / c.bLen)),
    rfl, rfl, lt_of_lt_of_le one_pos (le_max_left _ _), lt_of_lt_of_le one_pos (le_max_left _ _),
    hreach c.aLen ha, hreach c.bLen hb, hleast c.aLen ha, hleast c.bLen hb,
    rfl, rfl, rfl, ?_⟩
  intro hga hgb
  have h1 := hone c.aLen ha hga
  have h2 := hone c.bLen hb hgb
  refine ⟨h1, h2, ?_, ?_, ?_⟩
  · simp only [h1, h2]
    simp
  · simp only [h1]
    push_cast
    exact one_mul _
  · simp only [h2]
    push_cast
    exact one_mul _

theorem tile_substrate_spec_witness :
    ∃ tiled, tile_substrate ⟨[⟨2, "H"⟩, ⟨1, "Cu"⟩], 9, 10⟩ 8 = some tiled ∧
      ∃ na nb : ℤ,
        na = max 1 (Rat.ceil (8 / Config.aLen ⟨[⟨2, "H"⟩, ⟨1, "Cu"⟩], 9, 10⟩)) ∧
        nb = max 1 (Rat.ceil (8 / Config.bLen ⟨[⟨2, "H"⟩, ⟨1, "Cu"⟩], 9, 10⟩)) ∧
        0 < na ∧ 0 < nb ∧
        8 ≤ (na : ℚ) * Config.aLen ⟨[⟨2, "H"⟩, ⟨1, "Cu"⟩], 9, 10⟩ ∧
        8 ≤ (nb : ℚ) * Config.bLen ⟨[⟨2, "H"⟩, ⟨1, "Cu"⟩], 9, 10⟩ ∧
        (∀ k : ℤ, 0 < k → 8 ≤ (k : ℚ) * Config.aLen ⟨[⟨2, "H"⟩, ⟨1, "Cu"⟩], 9, 10⟩ → na ≤ k) ∧
        (∀ k : ℤ, 0 < k → 8 ≤ (k : ℚ) * Config.bLen ⟨[⟨2, "H"⟩, ⟨1, "Cu"⟩], 9, 10⟩ → nb ≤ k) ∧
        tiled.aLen = (na : ℚ) * Config.aLen ⟨[⟨2, "H"⟩, ⟨1, "Cu"⟩], 9, 10⟩ ∧
        tiled.bLen = (nb : ℚ) * Config.bLen ⟨[⟨2, "H"⟩, ⟨1, "Cu"⟩], 9, 10⟩ ∧
        tiled.atoms = (List.replicate (na.toNat * nb.toNat)
            ((Config.atoms ⟨[⟨2, "H"⟩, ⟨1, "Cu"⟩], 9, 10⟩).filter fun a => a.tag ≠ 2)).flatten
          ++ (Config.atoms ⟨[⟨2, "H"⟩, ⟨1, "Cu"⟩], 9, 10⟩).filter (fun a => a.tag = 2) ∧
        (8 ≤ Config.aLen ⟨[⟨2, "H"⟩, ⟨1, "Cu"⟩], 9, 10⟩ →
          8 ≤ Config.bLen ⟨[⟨2, "H"⟩, ⟨1, "Cu"⟩], 9, 10⟩ → na = 1 ∧ nb = 1 ∧
          tiled.atoms = ((Config.atoms ⟨[⟨2, "H"⟩, ⟨1, "Cu"⟩], 9, 10⟩).filter fun a => a.tag ≠ 2)
            ++ (Config.atoms ⟨[⟨2, "H"⟩, ⟨1, "Cu"⟩], 9, 10⟩).filter (fun a => a.tag = 2) ∧
          tiled.aLen = Config.aLen ⟨[⟨2, "H"⟩, ⟨1, "Cu"⟩], 9, 10⟩ ∧
          tiled.bLen = Config.bLen ⟨[⟨2, "H"⟩, ⟨1, "Cu"⟩], 9, 10⟩) :=
  tile_substrate_spec ⟨[⟨2, "H"⟩, ⟨1, "Cu"⟩], 9, 10⟩ 8 (by decide) (by decide)

lemma tile_substrate_eq_some (c : Config) (min_ab : ℚ)
    (ha : ¬ c.aLen = 0) (hb : ¬ c.bLen = 0) :
    tile_substrate c min_ab
      = some (Config.mk
          ((List.replicate
            ((max 1 (Rat.ceil (min_ab / c.aLen))).toNat
              * (max 1 (Rat.ceil (min_ab / c.bLen))).toNat)
            (c.atoms.filter fun a => a.tag ≠ 2)).flatten
          ++ c.atoms.filter (fun a => a.tag = 2))
          (((max 1 (Rat.ceil (min_ab / c.aLen)) : ℤ) : ℚ) * c.aLen)
          (((max 1 (Rat.ceil (min_ab / c.bLen)) : ℤ) : ℚ) * c.bLen)) := by
  unfold tile_substrate
  rw [if_neg]
  rintro (h | h)
  · exact ha h
  · exact hb h

lemma tiled_no_adsorbate (c : Config) (min_ab : ℚ) (tiled : Config)
    (htile : tile_substrate c min_ab = some tiled)
    (h2 : ∀ a ∈ c.atoms, a.tag ≠ 2) :
    adsIdx (tiled.atoms.map Atom.tag) = none := by
  unfold adsIdx
  rw [List.findIdx?_eq_none_iff]
  intro x hx
  obtain ⟨a, hamem, hax⟩ := List.mem_map.mp hx
  subst hax
  unfold tile_substrate at htile
  by_cases hc : c.aLen = 0 ∨ c.bLen = 0
  · rw [if_pos hc] at htile
    exact absurd htile (by simp)
  · rw [if_neg hc] at htile
    have htiled := (Option.some_injective _ htile).symm
    rw [htiled] at hamem
    simp only [List.mem_append] at hamem
    rcases hamem with hmem | hmem
    · obtain ⟨l, hl, hal⟩ := List.mem_flatten.mp hmem
      have := (List.eq_of_mem_replicate hl) ▸ hal
      have hfil := List.mem_filter.mp this
      simpa using hfil.2
    · have hfil := List.mem_filter.mp hmem
      have : a.tag = 2 := by simpa using hfil.2
      exact absurd this (h2 a hfil.1)

lemma site_info_none_of_no_adsorbate (cfg tiled : Config) (dist : ℕ → ℕ → ℚ)
    (htile : tile_substrate cfg 8 = some tiled)
    (hads : adsIdx (tiled.atoms.map Atom.tag) = none) :
    site_info (some cfg) dist = ⟨none, none⟩ := by
  simp [site_info, siteInfoCore, htile, hads]

/-- C7: `site_info` catches every exception raised inside its body — a
failed trajectory read, the tiling failure on a degenerate cell, a missing
adsorbate atom — and returns the `(None, None)` row instead of
propagating, and applying it over a whole batch of rows is total (one
output per row, the batch is never aborted). -/
theorem site_info_catches_failures :
    (∀ dist : ℕ → ℕ → ℚ, site_info none dist = ⟨none, none⟩) ∧
    (∀ (cfg : Config) (dist : ℕ → ℕ → ℚ), cfg.aLen = 0 ∨ cfg.bLen = 0 →
      site_info (some cfg) dist = ⟨none, none⟩) ∧
    (∀ (cfg : Config) (dist : ℕ → ℕ → ℚ), ¬ cfg.aLen = 0 → ¬ cfg.bLen = 0 →
      (∀ a ∈ cfg.atoms, a.tag ≠ 2) → site_info (some cfg) dist = ⟨none, none⟩) ∧
    (∀ (rows : List (Option Config)) (dist : ℕ → ℕ → ℚ),
      (rows.map fun r => site_info r dist).length = rows.length) := by
  refine ⟨?_, ?_, ?_, ?_⟩
  · intro dist
    rfl
  · intro cfg dist h
    have htile : tile_substrate cfg 8 = none := by
      unfold tile_substrate
      rw [if_pos h]
    simp [site_info, siteInfoCore, htile]
  · intro cfg dist ha hb h2
    have htile := tile_substrate_eq_some cfg 8 ha hb
    exact site_info_none_of_no_adsorbate cfg _ dist htile
      (tiled_no_adsorbate cfg 8 _ htile h2)
  · intro rows dist
    exact List.length_map _ _

theorem site_info_catches_failures_witness :
    site_info none (fun _ _ => 1) = ⟨none, none⟩ ∧
    site_info (some ⟨[⟨2, "H"⟩], 0, 10⟩) (fun _ _ => 1) = ⟨none, none⟩ ∧
    site_info (some ⟨[⟨1, "Cu"⟩, ⟨0, "Cu"⟩], 9, 10⟩) (fun _ _ => 1) = ⟨none, none⟩ ∧
    ((([none, some ⟨[], 1, 1⟩] : List (Option Config)).map
      fun r => site_info r (fun _ _ => 1)).length = 2) :=
  ⟨site_info_catches_failures.1 (fun _ _ => 1),
   site_info_catches_failures.2.1 ⟨[⟨2, "H"⟩], 0, 10⟩ (fun _ _ => 1) (Or.inl rfl),
   site_info_catches_failures.2.2.1 ⟨[⟨1, "Cu"⟩, ⟨0, "Cu"⟩], 9, 10⟩ (fun _ _ => 1)
     (by decide) (by decide) (by decide),
   site_info_catches_failures.2.2.2 [none, some ⟨[], 1, 1⟩] (fun _ _ => 1)⟩

lemma site_info_of_adsIdx (cfg tiled : Config) (adsI : ℕ) (dist : ℕ → ℕ → ℚ)
    (htile : tile_substrate cfg 8 = some tiled)
    (hads : adsIdx (tiled.atoms.map Atom.tag) = some adsI) :
    site_info (some cfg) dist
      = ⟨some (classify
            (nearest_idx (dist adsI) (surfIdx (tiled.atoms.map Atom.tag)) (1/10)).length
            "unknown"),
         if (nearest_idx (dist adsI) (surfIdx (tiled.atoms.map Atom.tag)) (1/10)).isEmpty
         then none
         else some ((nearest_idx (dist adsI) (surfIdx (tiled.atoms.map Atom.tag)) (1/10)).map
            fun i => (tiled.atoms.getD i ⟨0, ""⟩).symbol)⟩ := by
  simp [site_info, siteInfoCore, htile, hads]

/-- C9: on the success path (trajectory read, tiling and adsorbate lookup
all succeed), an empty coordination set — which occurs in particular when
every surface atom sits at non-positive (i.e. zero) minimum-image distance,
not only when there are no surface atoms — yields `site_type = "unknown"`
and `nearest_atoms = None` (a null, not an empty list), while a non-empty
coordination set yields the classifier's label for its cardinality and
exactly the chemical symbols of the atoms in the set. -/
theorem site_info_site_classification (cfg : Config) (dist : ℕ → ℕ → ℚ)
    (ha : ¬ cfg.aLen = 0) (hb : ¬ cfg.bLen = 0)
    (hads : ∃ a ∈ cfg.atoms, a.tag = 2) :
    ∃ tiled adsI, tile_substrate cfg 8 = some tiled ∧
      adsIdx (tiled.atoms.map Atom.tag) = some adsI ∧
      (nearest_idx (dist adsI) (surfIdx (tiled.atoms.map Atom.tag)) (1/10) = [] →
        site_info (some cfg) dist = ⟨some "unknown", none⟩) ∧
      (nearest_idx (dist adsI) (surfIdx (tiled.atoms.map Atom.tag)) (1/10) ≠ [] →
        site_info (some cfg) dist
          = ⟨some (classify
                (nearest_idx (dist adsI) (surfIdx (tiled.atoms.map Atom.tag)) (1/10)).length
                "unknown"),
             some ((nearest_idx (dist adsI) (surfIdx (tiled.atoms.map Atom.tag)) (1/10)).map
                fun i => (tiled.atoms.getD i ⟨0, ""⟩).symbol)⟩) ∧
      ((∀ j ∈ surfIdx (tiled.atoms.map Atom.tag), ¬ 0 < dist adsI j) →
        site_info (some cfg) dist = ⟨some "unknown", none⟩) := by
  have htile := tile_substrate_eq_some cfg 8 ha hb
  obtain ⟨a, ham, hat⟩ := hads
  have hmem2 : (2 : ℕ) ∈ (Config.mk
      ((List.replicate
        ((max 1 (Rat.ceil (8 / cfg.aLen))).toNat
          * (max 1 (Rat.ceil (8 / cfg.bLen))).toNat)
        (cfg.atoms.filter fun a => a.tag ≠ 2)).flatten
      ++ cfg.atoms.filter (fun a => a.tag = 2))
      (((max 1 (Rat.ceil (8 / cfg.aLen)) : ℤ) : ℚ) * cfg.aLen)
      (((max 1 (Rat.ceil (8 / cfg.bLen)) : ℤ) : ℚ) * cfg.bLen)).atoms.map Atom.tag := by
    refine List.mem_map.mpr ⟨a, ?_, hat⟩
    exact List.mem_append.mpr (Or.inr (List.mem_filter.mpr ⟨ham, decide_eq_true hat⟩))
  rcases hids : adsIdx ((Config.mk
      ((List.replicate
        ((max 1 (Rat.ceil (8 / cfg.aLen))).toNat
          * (max 1 (Rat.ceil (8 / cfg.bLen))).toNat)
        (cfg.atoms.filter fun a => a.tag ≠ 2)).flatten
      ++ cfg.atoms.filter (fun a => a.tag = 2))
      (((max 1 (Rat.ceil (8 / cfg.aLen)) : ℤ) : ℚ) * cfg.aLen)
      (((max 1 (Rat.ceil (8 / cfg.bLen)) : ℤ) : ℚ) * cfg.bLen)).atoms.map Atom.tag)
    with _ | adsI
  · exfalso
    have hall := List.findIdx?_eq_none_iff.mp hids 2 hmem2
    simp at hall
  · refine ⟨_, adsI, htile, hids, ?_, ?_, ?_⟩
    · intro hnil
      rw [site_info_of_adsIdx cfg _ adsI dist htile hids, hnil]
      rfl
    · intro hne
      rw [site_info_of_adsIdx cfg _ adsI dist htile hids]
      rw [if_neg]
      simp only [List.isEmpty_iff]
      exact hne
    · intro hnonpos
      have hnil := nearest_idx_nil_of_nonpos (dist adsI) _ (1/10) hnonpos
      rw [site_info_of_adsIdx cfg _ adsI dist htile hids, hnil]
      rfl

theorem site_info_site_classification_witness :
    ∃ tiled adsI, tile_substrate ⟨[⟨1, "Cu"⟩, ⟨2, "H"⟩], 9, 10⟩ 8 = some tiled ∧
      adsIdx (tiled.atoms.map Atom.tag) = some adsI ∧
      (nearest_idx ((fun _ _ => 1 : ℕ → ℕ → ℚ) adsI) (surfIdx (tiled.atoms.map Atom.tag)) (1/10) = [] →
        site_info (some ⟨[⟨1, "Cu"⟩, ⟨2, "H"⟩], 9, 10⟩) (fun _ _ => 1) = ⟨some "unknown", none⟩) ∧
      (nearest_idx ((fun _ _ => 1 : ℕ → ℕ → ℚ) adsI) (surfIdx (tiled.atoms.map Atom.tag)) (1/10) ≠ [] →
        site_info (some ⟨[⟨1, "Cu"⟩, ⟨2, "H"⟩], 9, 10⟩) (fun _ _ => 1)
          = ⟨some (classify
                (nearest_idx ((fun _ _ => 1 : ℕ → ℕ → ℚ) adsI)
                  (surfIdx (tiled.atoms.map Atom.tag)) (1/10)).length
                "unknown"),
             some ((nearest_idx ((fun _ _ => 1 : ℕ → ℕ → ℚ) adsI)
                  (surfIdx (tiled.atoms.map Atom.tag)) (1/10)).map
                fun i => (tiled.atoms.getD i ⟨0, ""⟩).symbol)⟩) ∧
      ((∀ j ∈ surfIdx (tiled.atoms.map Atom.tag), ¬ 0 < (fun _ _ => 1 : ℕ → ℕ → ℚ) adsI j) →
        site_info (some ⟨[⟨1, "Cu"⟩, ⟨2, "H"⟩], 9, 10⟩) (fun _ _ => 1) = ⟨some "unknown", none⟩) :=
  site_info_site_classification ⟨[⟨1, "Cu"⟩, ⟨2, "H"⟩], 9, 10⟩ (fun _ _ => 1)
    (by decide) (by decide) ⟨⟨2, "H"⟩, by decide, by decide⟩

lemma stripSign_sound (cs : List Char) :
    ∃ sgn, (sgn = [] ∨ sgn = ['-'] ∨ sgn = ['+']) ∧ cs = sgn ++ (stripSign cs).2 := by
  unfold stripSign
  split
  · exact ⟨['-'], Or.inr (Or.inl rfl), rfl⟩
  · exact ⟨['+'], Or.inr (Or.inr rfl), rfl⟩
  · exact ⟨[], Or.inl rfl, rfl⟩

lemma matchNumber_sound (cs : List Char) (q : ℚ) (rest : List Char)
    (h : matchNumber cs = some (q, rest)) :
    ∃ num, cs = num ++ rest ∧ NumTok num := by
  obtain ⟨sgn, hsgn, hcs⟩ := stripSign_sound cs
  unfold matchNumber at h
  set s2 := (stripSign cs).2 with hs2
  split at h
  case _ cs3 heq =>
    split at h
    · exact absurd h (by simp)
    case _ hne =>
      rw [Option.some_inj, Prod.mk.injEq] at h
      obtain ⟨hq, hrest⟩ := h
      refine ⟨sgn ++ (s2.takeWhile Char.isDigit ++ '.' :: cs3.takeWhile Char.isDigit), ?_, ?_⟩
      · calc cs = sgn ++ s2 := hcs
          _ = sgn ++ (s2.takeWhile Char.isDigit ++ s2.dropWhile Char.isDigit) := by
              rw [List.takeWhile_append_dropWhile]
          _ = sgn ++ (s2.takeWhile Char.isDigit ++ ('.' :: cs3)) := by rw [heq]
          _ = sgn ++ (s2.takeWhile Char.isDigit
              ++ ('.' :: (cs3.takeWhile Char.isDigit ++ cs3.dropWhile Char.isDigit))) := by
              rw [List.takeWhile_append_dropWhile]
          _ = sgn ++ (s2.takeWhile Char.isDigit
              ++ ('.' :: (cs3.takeWhile Char.isDigit ++ rest))) := by rw [hrest]
          _ = (sgn ++ (s2.takeWhile Char.isDigit ++ '.' :: cs3.takeWhile Char.isDigit))
              ++ rest := by simp [List.append_assoc]
      · refine ⟨sgn, s2.takeWhile Char.isDigit, cs3.takeWhile Char.isDigit, hsgn,
          ?_, ?_, ?_, Or.inl (by simp [List.append_assoc])⟩
        · intro c hc
          exact List.mem_takeWhile_imp hc
        · intro c hc
          exact List.mem_takeWhile_imp hc
        · simpa [List.isEmpty_iff] using hne
  case _ =>
    split at h
    · exact absurd h (by simp)
    case _ hne =>
      rw [Option.some_inj, Prod.mk.injEq] at h
      obtain ⟨hq, hrest⟩ := h
      refine ⟨sgn ++ s2.takeWhile Char.isDigit, ?_, ?_⟩
      · calc cs = sgn ++ s2 := hcs
          _ = sgn ++ (s2.takeWhile Char.isDigit ++ s2.dropWhile Char.isDigit) := by
              rw [List.takeWhile_append_dropWhile]
          _ = sgn ++ (s2.takeWhile Char.isDigit ++ rest) := by rw [hrest]
          _ = (sgn ++ s2.takeWhile Char.isDigit) ++ rest := by simp [List.append_assoc]
      · refine ⟨sgn, [], s2.takeWhile Char.isDigit, hsgn, by simp, ?_,
          ?_, Or.inr ⟨rfl, rfl⟩⟩
        · intro c hc
          exact List.mem_takeWhile_imp hc
        · simpa [List.isEmpty_iff] using hne

lemma matchAt_sound (cs : List Char) (v : ℚ × Bool) (h : matchAt cs = some v) :
    PatMatch cs := by
  unfold matchAt at h
  split at h
  case _ rest =>
    split at h
    case _ rest2 heq1 =>
      split at h
      case _ q rest5 heq2 =>
        obtain ⟨num, hdec, hnum⟩ := matchNumber_sound _ _ _ heq2
        have hrest : rest = rest.takeWhile (fun c => c ≠ ')')
            ++ (')' :: ',' :: rest2) := by
          conv_lhs => rw [← List.takeWhile_append_dropWhile (fun c => c ≠ ')') rest]
          rw [heq1]
        have hrest2 : rest2 = rest2.takeWhile wsChar ++ (num ++ ',' :: rest5) := by
          conv_lhs => rw [← List.takeWhile_append_dropWhile wsChar rest2]
          rw [hdec]
        have hbody : ∀ c ∈ rest.takeWhile (fun c => c ≠ ')'), c ≠ ')' := by
          intro c hc
          simpa using List.mem_takeWhile_imp hc
        have hws1 : ∀ c ∈ rest2.takeWhile wsChar, wsChar c = true := by
          intro c hc
          exact List.mem_takeWhile_imp hc
        have hws2 : ∀ c ∈ rest5.takeWhile wsChar, wsChar c = true := by
          intro c hc
          exact List.mem_takeWhile_imp hc
        have hrest5 : rest5 = rest5.takeWhile wsChar ++ rest5.dropWhile wsChar :=
          (List.takeWhile_append_dropWhile _ _).symm
        split at h
        case _ htrue =>
          obtain ⟨post, hpost⟩ := List.isPrefixOf_iff_prefix.mp htrue
          refine ⟨[], rest.takeWhile (fun c => c ≠ ')'), rest2.takeWhile wsChar, num,
            rest5.takeWhile wsChar, "True".toList, post, ?_, hbody, hws1, hnum, hws2,
            Or.inl rfl⟩
          rw [List.nil_append]
          conv_lhs => rw [hrest]
          conv_lhs => rw [hrest2]
          conv_lhs => rw [hrest5]
          rw [← hpost]
          simp [List.append_assoc]
        case _ =>
          split at h
          case _ hfalse =>
            obtain ⟨post, hpost⟩ := List.isPrefixOf_iff_prefix.mp hfalse
            refine ⟨[], rest.takeWhile (fun c => c ≠ ')'), rest2.takeWhile wsChar, num,
              rest5.takeWhile wsChar, "False".toList, post, ?_, hbody, hws1, hnum, hws2,
              Or.inr rfl⟩
            rw [List.nil_append]
            conv_lhs => rw [hrest]
            conv_lhs => rw [hrest2]
            conv_lhs => rw [hrest5]
            rw [← hpost]
            simp [List.append_assoc]
          case _ =>
            exact absurd h (by simp)
      case _ =>
        exact absurd h (by simp)
    case _ =>
      exact absurd h (by simp)
  case _ =>
    exact absurd h (by simp)

lemma searchFrom_sound (cs : List Char) (v : ℚ × Bool) (h : searchFrom cs = some v) :
    ∃ pre suf, cs = pre ++ suf ∧ matchAt suf = some v := by
  induction cs with
  | nil => exact ⟨[], [], rfl, h⟩
  | cons c rest ih =>
    unfold searchFrom at h
    split at h
    case _ v0 heq =>
      rw [Option.some_inj] at h
      subst h
      exact ⟨[], c :: rest, rfl, heq⟩
    case _ =>
      obtain ⟨pre, suf, heqq, hm⟩ := ih h
      exact ⟨c :: pre, suf, by rw [heqq]; rfl, hm⟩

lemma patMatch_append (pre0 suf : List Char) (h : PatMatch suf) :
    PatMatch (pre0 ++ suf) := by
  obtain ⟨pre, body, ws1, num, ws2, tb, post, heq, hb, h1, hn, h2, htb⟩ := h
  exact ⟨pre0 ++ pre, body, ws1, num, ws2, tb, post,
    by rw [heq, ← List.append_assoc], hb, h1, hn, h2, htb⟩

lemma patMatch_mem (cs : List Char) (h : PatMatch cs) : '(' ∈ cs := by
  obtain ⟨pre, body, ws1, num, ws2, tb, post, heq, _⟩ := h
  rw [heq]
  exact List.mem_append.mpr (Or.inr (List.mem_cons_self _ _))

/-- C5 counterexample: the claim is false as stated.  The string below
contains the literal fragment `"(..., 0.3333, True)"` yet `shift_top`
returns `(1.5, True)` — the regex engine takes the leftmost match.
Moreover the literal fragment itself does not even match the pattern (the
pattern requires a parenthesized group followed by a comma before the
shift), so on the string `"(..., 0.3333, True)"` alone the code returns
the `(nan, nan)` sentinel, not `(0.3333, True)`. -/
theorem shift_top_counterexample :
    (∃ pre post : String, "(x), 1.5, True and (..., 0.3333, True)"
        = pre ++ ("(..., 0.3333, True)" ++ post)) ∧
    shift_top "(x), 1.5, True and (..., 0.3333, True)" ≠ some (3333/10000, true) ∧
    shift_top "(..., 0.3333, True)" = none := by
  refine ⟨⟨"(x), 1.5, True and ", "", by decide⟩, ?_, by rfl⟩
  have h : shift_top "(x), 1.5, True and (..., 0.3333, True)"
      = some (decValue false ['1'] ['5'], true) := by rfl
  rw [h]
  have hv : decValue false ['1'] ['5'] = 3/2 := by
    have h1 : digitsVal ['1'] = 1 := by decide
    have h2 : digitsVal ['5'] = 5 := by decide
    unfold decValue
    rw [h1, h2]
    norm_num
  rw [hv]
  intro hcon
  rw [Option.some_inj, Prod.mk.injEq] at hcon
  have h32 := hcon.1
  norm_num at h32

/-- C5 (amended): `shift_top` recovers the `(shift, top)` pair captured by
the *leftmost* match of the pattern — on a slab string whose leftmost
match is `"((2, 2, 1), 0.3333, True)"` it returns `(0.3333, True)` — and
on every string with no match of the pattern at all it returns the
`(nan, nan)` sentinel (modelled `none`) without raising: the matcher is a
total function that is `none` on the complement of the pattern's
language. -/
theorem shift_top_spec :
    shift_top "((2, 2, 1), 0.3333, True)" = some (3333/10000, true) ∧
    ∀ s : String, ¬ PatMatch s.toList → shift_top s = none := by
  constructor
  · have h : shift_top "((2, 2, 1), 0.3333, True)"
        = some (decValue false ['0'] ['3', '3', '3', '3'], true) := by rfl
    rw [h]
    have hv : decValue false ['0'] ['3', '3', '3', '3'] = 3333/10000 := by
      have h1 : digitsVal ['3', '3', '3', '3'] = 3333 := by decide
      have h2 : digitsVal ['0'] = 0 := by decide
      unfold decValue
      rw [h1, h2]
      norm_num
    rw [hv]
  · intro s hnm
    rcases hval : shift_top s with _ | v
    · rfl
    · exfalso
      apply hnm
      unfold shift_top at hval
      obtain ⟨pre, suf, heq, hm⟩ := searchFrom_sound _ _ hval
      rw [heq]
      exact patMatch_append pre suf (matchAt_sound _ _ hm)

theorem shift_top_spec_witness :
    shift_top "abc" = none :=
  shift_top_spec.2 "abc" fun hm => absurd (patMatch_mem _ hm) (by decide)
